import Mathlib

/-!
# mylab: atomic counter, atomic flag and spinlock

A shallow embedding of `internal/atomic` (`safe_counter.go`, `atomic_flag.go`,
`spinlock.go`) and of the workloads the tests and the `cmd/` programs run on
them.

* An `int32` cell is an `Int` kept in range by an explicit two's complement
  wrap (`wrap 32`); Go's `int` is `wrap bits` for a platform width `bits`
  (32 or 64), carried as a parameter.
* Every `sync/atomic` call is one indivisible step on its cell.
* Goroutines are modelled by interleaving: a schedule is a list saying which
  thread performs its next atomic step.
-/

namespace Mylab

/-! ## Machine integers and the `sync/atomic` calls used by the package -/

/-- Two's complement wrap of an integer to a signed word of `bits` bits. -/
def wrap (bits : Nat) (x : Int) : Int :=
  (x + 2 ^ (bits - 1)) % 2 ^ bits - 2 ^ (bits - 1)

/-- Range of the values an `int32` variable can hold. -/
def isInt32 (x : Int) : Prop := -2147483648 ≤ x ∧ x < 2147483648

instance (x : Int) : Decidable (isInt32 x) := by
  unfold isInt32; infer_instance

/-- `atomic.AddInt32(addr, delta)`: the new value of the cell (also returned). -/
def AddInt32 (cell delta : Int) : Int := wrap 32 (cell + delta)

/-- `atomic.StoreInt32(addr, val)`: the new value of the cell. -/
def StoreInt32 (_cell val : Int) : Int := val

/-- `atomic.LoadInt32(addr)`. -/
def LoadInt32 (cell : Int) : Int := cell

/-- `atomic.CompareAndSwapInt32(addr, old, new)`: the new value of the cell and
whether the swap happened. -/
def CompareAndSwapInt32 (cell old new : Int) : Int × Bool :=
  if cell = old then (new, true) else (cell, false)

/-! ## safe_counter.go -/

/-- `type SafeCounter struct { value int32 }`. -/
structure SafeCounter where
  value : Int
deriving DecidableEq, Repr

/-- `func (c *SafeCounter) Increment()`. -/
def SafeCounter.Increment (c : SafeCounter) : SafeCounter :=
  ⟨AddInt32 c.value 1⟩

/-- `func (c *SafeCounter) Decrement()`. -/
def SafeCounter.Decrement (c : SafeCounter) : SafeCounter :=
  ⟨AddInt32 c.value (-1)⟩

/-- `func (c *SafeCounter) Value() int32`. -/
def SafeCounter.Value (c : SafeCounter) : Int :=
  LoadInt32 c.value

/-- A call of one of the two mutators of `SafeCounter`. -/
inductive CounterOp where
  | increment
  | decrement
deriving DecidableEq, Repr

/-- Effect of one mutator call. -/
def CounterOp.apply : CounterOp → SafeCounter → SafeCounter
  | .increment, c => c.Increment
  | .decrement, c => c.Decrement

/-- Effect of a sequence of mutator calls, in the order the atomic operations
take effect on the cell. -/
def runCounter : List CounterOp → SafeCounter → SafeCounter
  | [], c => c
  | op :: rest, c => runCounter rest (op.apply c)

/-- The workload of `TestAtomicCounter` and `cmd/atomic_counter`: an
interleaving is the list of the ids of the threads, in the order their
`atomic.AddInt32(&count, 1)` take effect. -/
def runIncrements : List Nat → SafeCounter → SafeCounter
  | [], c => c
  | _ :: rest, c => runIncrements rest c.Increment

/-- An interleaving of `T` threads doing `K` increments each: only ids below
`T` occur, each of them exactly `K` times. -/
def IsInterleaving (T K : Nat) (sched : List Nat) : Prop :=
  (∀ t ∈ sched, t < T) ∧ ∀ t, t < T → sched.count t = K

instance (T K : Nat) (sched : List Nat) : Decidable (IsInterleaving T K sched) := by
  unfold IsInterleaving; infer_instance

/-! ## atomic_flag.go -/

/-- `type AtomicFlag struct { flag int32 }`. -/
structure AtomicFlag where
  flag : Int
deriving DecidableEq, Repr

/-- `func (f *AtomicFlag) Set()`. -/
def AtomicFlag.Set (f : AtomicFlag) : AtomicFlag :=
  ⟨StoreInt32 f.flag 1⟩

/-- `func (f *AtomicFlag) Unset()`. -/
def AtomicFlag.Unset (f : AtomicFlag) : AtomicFlag :=
  ⟨StoreInt32 f.flag 0⟩

/-- `func (f *AtomicFlag) IsSet() bool`. -/
def AtomicFlag.IsSet (f : AtomicFlag) : Bool :=
  LoadInt32 f.flag == 1

/-- A call of one of the two writers of `AtomicFlag`. -/
inductive FlagOp where
  | set
  | unset
deriving DecidableEq, Repr

/-- Effect of one writer call. -/
def FlagOp.apply : FlagOp → AtomicFlag → AtomicFlag
  | .set, f => f.Set
  | .unset, f => f.Unset

/-- Effect of a sequence of writer calls, in the order the stores take effect. -/
def runFlag : List FlagOp → AtomicFlag → AtomicFlag
  | [], f => f
  | op :: rest, f => runFlag rest (op.apply f)

/-- The zero value `&atomic.AtomicFlag{}`. -/
def AtomicFlag.zero : AtomicFlag := ⟨0⟩

/-! ## spinlock.go -/

/-- `type SpinLock struct { locked int32 }`. -/
structure SpinLock where
  locked : Int
deriving DecidableEq, Repr

/-- One evaluation of the loop condition of `Lock`:
`atomic.CompareAndSwapInt32(&s.locked, 0, 1)`. -/
def SpinLock.tryAcquire (s : SpinLock) : SpinLock × Bool :=
  let r := CompareAndSwapInt32 s.locked 0 1
  (⟨r.1⟩, r.2)

/-- `func (s *SpinLock) Lock()` run alone (no other thread touches the word):
`for !CAS(0,1) { runtime.Gosched() }`, bounded by the number of attempts
allowed. `none`: the loop is still spinning after that many attempts. -/
def SpinLock.Lock : Nat → SpinLock → Option SpinLock
  | 0, _ => none
  | n + 1, s =>
    match s.tryAcquire with
    | (s', true) => some s'
    | (s', false) => SpinLock.Lock n s'

/-- Outcomes of the first `n` attempts of the loop of `Lock` run alone (the
loop ends at the first `true`), and the lock after them. -/
def SpinLock.attempts : Nat → SpinLock → List Bool × SpinLock
  | 0, s => ([], s)
  | n + 1, s =>
    match s.tryAcquire with
    | (s', true) => ([true], s')
    | (s', false) => (false :: (SpinLock.attempts n s').1, (SpinLock.attempts n s').2)

/-- `func (s *SpinLock) Unlock()`. -/
def SpinLock.Unlock (s : SpinLock) : SpinLock :=
  ⟨StoreInt32 s.locked 0⟩

/-- The zero value `var spin atomic.SpinLock`. -/
def SpinLock.zero : SpinLock := ⟨0⟩

/-! ## The spinlock workload of `TestSpinLock` and `cmd/spinlock`

Each thread runs `for i := 0; i < K; i++ { spin.Lock(); count++; spin.Unlock() }`.
The atomic steps of a thread are: one `CompareAndSwapInt32` attempt of `Lock`,
the read of `count`, the write of `count`, and the store of `Unlock` (the
thread-local `i++` and loop test are done together with it). -/

/-- Program points of a worker thread. -/
inductive PC where
  /-- Inside `Lock`, about to evaluate `CompareAndSwapInt32(&s.locked, 0, 1)`. -/
  | acquire
  /-- Returned from `Lock`, about to read `count` (first half of `count++`). -/
  | load
  /-- About to write the value read plus one to `count` (second half of `count++`). -/
  | store
  /-- About to run the `StoreInt32` of `Unlock`. -/
  | release
  /-- Left the loop (`wg.Done()`). -/
  | finished
deriving DecidableEq, Repr

/-- Local state of a worker thread: program point, loop variable `i`, and the
value of `count` it has read. -/
structure Worker where
  pc : PC
  i : Nat
  tmp : Int
deriving DecidableEq, Repr

/-- A worker is inside the critical section from its successful
`CompareAndSwap` to the store of its `Unlock`. -/
def Worker.inCS (th : Worker) : Bool :=
  th.pc == PC.load || th.pc == PC.store || th.pc == PC.release

/-- Shared state and the threads: `var spin SpinLock`, `var count int`. -/
structure World where
  spin : SpinLock
  count : Int
  workers : Nat → Worker

/-- State before any thread has made a step: the lock and `count` are zero
values, threads `0 .. T-1` are at the loop head with `i = 0`. -/
def World.init (T K : Nat) : World where
  spin := SpinLock.zero
  count := 0
  workers := fun t =>
    if t < T ∧ 0 < K then ⟨PC.acquire, 0, 0⟩ else ⟨PC.finished, 0, 0⟩

/-- One atomic step of thread `t`; `bits` is the width of Go's `int`, `K` the
loop bound. -/
def World.step (bits K : Nat) (t : Nat) (s : World) : World :=
  let th := s.workers t
  match th.pc with
  | PC.acquire =>
    match s.spin.tryAcquire with
    | (l, true) => { s with spin := l, workers := Function.update s.workers t { th with pc := PC.load } }
    | (l, false) => { s with spin := l }
  | PC.load =>
    { s with workers := Function.update s.workers t { th with pc := PC.store, tmp := s.count } }
  | PC.store =>
    { s with count := wrap bits (th.tmp + 1),
             workers := Function.update s.workers t { th with pc := PC.release } }
  | PC.release =>
    { s with spin := s.spin.Unlock,
             workers := Function.update s.workers t
               { th with i := th.i + 1, pc := if th.i + 1 < K then PC.acquire else PC.finished } }
  | PC.finished => s

/-- Run a schedule: the list of the threads that make the next step. -/
def World.run (bits K : Nat) : List Nat → World → World
  | [], s => s
  | t :: rest, s => World.run bits K rest (World.step bits K t s)

/-- All of the threads `0 .. T-1` have left their loop (`wg.Wait()` returns). -/
def World.allDone (T : Nat) (s : World) : Prop :=
  ∀ t, t < T → (s.workers t).pc = PC.finished

instance (T : Nat) (s : World) : Decidable (World.allDone T s) := by
  unfold World.allDone; infer_instance

/-- Number of `count++` statements the worker has completed. -/
def Worker.credit (th : Worker) : Nat :=
  th.i + (if th.pc = PC.release then 1 else 0)

/-- Number of atomic steps the worker still has to make if no
`CompareAndSwap` of its `Lock` calls fails. -/
def Worker.remaining (K : Nat) (th : Worker) : Nat :=
  match th.pc with
  | PC.acquire => 4 * (K - th.i)
  | PC.load => 4 * (K - th.i) - 1
  | PC.store => 4 * (K - th.i) - 2
  | PC.release => 4 * (K - th.i) - 3
  | PC.finished => 0

/-- Steps left in the whole workload. -/
def World.remaining (T K : Nat) (s : World) : Nat :=
  (Finset.range T).sum (fun t => (s.workers t).remaining K)

/-- Invariant of the lock word: either the word is 0 and no worker is inside
the critical section, or it is 1 and exactly one worker is. -/
def World.LockInv (s : World) : Prop :=
  (s.spin.locked = 0 ∧ ∀ t, (s.workers t).inCS = false) ∨
  (s.spin.locked = 1 ∧
    ∃ h, (s.workers h).inCS = true ∧ ∀ t, (s.workers t).inCS = true → t = h)

/-- Invariant of the guarded counter. -/
structure World.CountInv (bits T K : Nat) (s : World) : Prop where
  /-- A worker between its read and its write has read the current value. -/
  tmp : ∀ t, (s.workers t).pc = PC.store → (s.workers t).tmp = s.count
  /-- The variable `count` is the number of completed `count++`, wrapped. -/
  count : s.count = wrap bits (((Finset.range T).sum (fun t => (s.workers t).credit) : Nat) : Int)
  /-- Loop variable: `i < K` inside the loop, `i = K` after it. -/
  loop : ∀ t, t < T →
    ((s.workers t).pc = PC.finished → (s.workers t).i = K) ∧
    ((s.workers t).pc ≠ PC.finished → (s.workers t).i < K)
  /-- There are only `T` threads. -/
  idle : ∀ t, T ≤ t → (s.workers t).pc = PC.finished

/-! ## Clients that call `Lock` and `Unlock` in any order

No discipline is imposed: any thread may start `Lock` or call `Unlock` at any
time. `holds t` records that thread `t` has returned from `Lock()` and has not
called `Unlock()` since. -/

/-- An atomic step of a client thread. -/
inductive Call where
  /-- One `CompareAndSwap` attempt of a `Lock()` call by the thread. -/
  | lockAttempt (t : Nat)
  /-- An `Unlock()` call by the thread. -/
  | unlock (t : Nat)
deriving DecidableEq, Repr

/-- The lock and, for each thread, whether it believes it holds the lock. -/
structure Clients where
  spin : SpinLock
  holds : Nat → Bool

/-- Nobody holds the zero-valued lock. -/
def Clients.init : Clients where
  spin := SpinLock.zero
  holds := fun _ => false

/-- Effect of one call step. Neither `Lock` nor `Unlock` has a result value:
there is no error outcome. -/
def Clients.step : Call → Clients → Clients
  | Call.lockAttempt t, s =>
    match s.spin.tryAcquire with
    | (l, true) => { spin := l, holds := Function.update s.holds t true }
    | (l, false) => { s with spin := l }
  | Call.unlock t, s =>
    { spin := s.spin.Unlock, holds := Function.update s.holds t false }

/-- Run a sequence of call steps. -/
def Clients.run : List Call → Clients → Clients
  | [], s => s
  | c :: rest, s => Clients.run rest (Clients.step c s)

/-! ## Theorems -/

theorem wrap_wrap_add (bits : Nat) (a b : Int) :
    wrap bits (wrap bits a + b) = wrap bits (a + b) := by
  unfold wrap
  have h : (a + 2 ^ (bits - 1)) % 2 ^ bits - 2 ^ (bits - 1) + b + 2 ^ (bits - 1)
      = (a + 2 ^ (bits - 1)) % 2 ^ bits + b := by ring
  rw [h, Int.emod_add_emod]
  congr 2
  ring

theorem wrap_of_range (bits : Nat) (hb : 0 < bits) (x : Int)
    (hlo : -(2 ^ (bits - 1)) ≤ x) (hhi : x < 2 ^ (bits - 1)) : wrap bits x = x := by
  unfold wrap
  have hp : (2 : Int) ^ bits = 2 * 2 ^ (bits - 1) := by
    obtain ⟨k, rfl⟩ : ∃ k, bits = k + 1 := ⟨bits - 1, by omega⟩
    simp [pow_succ, mul_comm]
  rw [Int.emod_eq_of_lt (by linarith) (by linarith)]
  ring

theorem wrap_range (bits : Nat) (hb : 0 < bits) (x : Int) :
    -(2 ^ (bits - 1)) ≤ wrap bits x ∧ wrap bits x < 2 ^ (bits - 1) := by
  unfold wrap
  have hp : (2 : Int) ^ bits = 2 * 2 ^ (bits - 1) := by
    obtain ⟨k, rfl⟩ : ∃ k, bits = k + 1 := ⟨bits - 1, by omega⟩
    simp [pow_succ, mul_comm]
  have hpos : (0 : Int) < 2 ^ bits := by positivity
  have h1 := Int.emod_nonneg (x + 2 ^ (bits - 1)) (ne_of_gt hpos)
  have h2 := Int.emod_lt_of_pos (x + 2 ^ (bits - 1)) hpos
  constructor <;> linarith

theorem wrap32_isInt32 (x : Int) : isInt32 (wrap 32 x) := by
  have h := wrap_range 32 (by decide) x
  unfold isInt32
  norm_num at h
  exact h

/-! ### SafeCounter -/

theorem runCounter_append (xs ys : List CounterOp) (c : SafeCounter) :
    runCounter (xs ++ ys) c = runCounter ys (runCounter xs c) := by
  induction xs generalizing c with
  | nil => rfl
  | cons op rest ih => simp [runCounter, ih]

theorem wrap_idem (bits : Nat) (a : Int) : wrap bits (wrap bits a) = wrap bits a := by
  have h := wrap_wrap_add bits a 0
  simpa using h

theorem runCounter_value (ops : List CounterOp) (c : SafeCounter)
    (hc : wrap 32 c.value = c.value) :
    (runCounter ops c).value
      = wrap 32 (c.value + (ops.count CounterOp.increment : Int)
          - (ops.count CounterOp.decrement : Int)) := by
  induction ops generalizing c with
  | nil => simp [runCounter, hc]
  | cons op rest ih =>
    cases op with
    | increment =>
      have h := ih c.Increment (by simp [SafeCounter.Increment, AddInt32, wrap_idem])
      simp only [runCounter, CounterOp.apply, h]
      simp only [SafeCounter.Increment, AddInt32]
      rw [add_sub_assoc, wrap_wrap_add]
      congr 1
      simp [List.count_cons]
      ring
    | decrement =>
      have h := ih c.Decrement (by simp [SafeCounter.Decrement, AddInt32, wrap_idem])
      simp only [runCounter, CounterOp.apply, h]
      simp only [SafeCounter.Decrement, AddInt32]
      rw [add_sub_assoc, wrap_wrap_add]
      congr 1
      simp [List.count_cons]
      ring

theorem runIncrements_value (sched : List Nat) (c : SafeCounter)
    (hc : wrap 32 c.value = c.value) :
    (runIncrements sched c).value = wrap 32 (c.value + (sched.length : Int)) := by
  induction sched generalizing c with
  | nil => simp [runIncrements, hc]
  | cons t rest ih =>
    have h := ih c.Increment (by simp [SafeCounter.Increment, AddInt32, wrap_idem])
    simp only [runIncrements, h]
    simp only [SafeCounter.Increment, AddInt32]
    rw [wrap_wrap_add]
    congr 1
    simp only [List.length_cons]
    push_cast
    ring

theorem sum_count_eq_length (T : Nat) (sched : List Nat) (h : ∀ t ∈ sched, t < T) :
    (Finset.range T).sum (fun t => sched.count t) = sched.length := by
  induction sched with
  | nil => simp
  | cons x rest ih =>
    have hx : x < T := h x (List.mem_cons_self _ _)
    have hr : ∀ t ∈ rest, t < T := fun t ht => h t (List.mem_cons_of_mem _ ht)
    simp only [List.count_cons, Finset.sum_add_distrib, ih hr, List.length_cons]
    congr 1
    simp [Finset.sum_ite_eq, hx]

theorem interleaving_length (T K : Nat) (sched : List Nat) (h : IsInterleaving T K sched) :
    sched.length = T * K := by
  rw [← sum_count_eq_length T sched h.1]
  rw [Finset.sum_congr rfl (fun t ht => h.2 t (Finset.mem_range.mp ht))]
  simp

theorem two_thread_interleaving (K : Nat) :
    IsInterleaving 2 K (List.replicate K 0 ++ List.replicate K 1) := by
  constructor
  · intro t ht
    rcases List.mem_append.mp ht with h | h
    · rw [(List.mem_replicate.mp h).2]; decide
    · rw [(List.mem_replicate.mp h).2]; decide
  · intro t ht
    have : t = 0 ∨ t = 1 := by omega
    rcases this with rfl | rfl
    · rw [List.count_append, List.count_replicate_self, List.count_replicate]; simp
    · rw [List.count_append, List.count_replicate_self, List.count_replicate]; simp

theorem count_replicate_increment (n : Nat) :
    (List.replicate n CounterOp.increment).count CounterOp.increment = n ∧
    (List.replicate n CounterOp.increment).count CounterOp.decrement = 0 := by
  constructor
  · rw [List.count_replicate_self]
  · rw [List.count_replicate]; simp

theorem wrap32_zero : wrap 32 (0 : Int) = 0 := by norm_num [wrap]

theorem two_thread_value (K : Nat) :
    (runIncrements (List.replicate K 0 ++ List.replicate K 1) ⟨0⟩).Value
      = wrap 32 ((2 * K : Nat) : Int) := by
  unfold SafeCounter.Value LoadInt32
  rw [runIncrements_value _ ⟨0⟩ wrap32_zero,
    interleaving_length 2 K _ (two_thread_interleaving K)]
  simp

theorem replicate_increment_value (n : Nat) :
    (runCounter (List.replicate n CounterOp.increment) ⟨0⟩).Value = wrap 32 (n : Int) := by
  unfold SafeCounter.Value LoadInt32
  rw [runCounter_value _ ⟨0⟩ wrap32_zero, (count_replicate_increment n).1,
    (count_replicate_increment n).2]
  simp

/-- C3 (as amended): for every interleaving of the `T*K` atomic increments of
`T` threads doing `K` increments each on a `SafeCounter` that starts at 0, the
value read afterwards is `T*K` wrapped to `int32`; it is exactly `T*K` whenever
`T*K ≤ 2^31 - 1`. -/
theorem atomic_counter_convergence (T K : Nat) (sched : List Nat)
    (h : IsInterleaving T K sched) :
    (runIncrements sched ⟨0⟩).Value = wrap 32 ((T : Int) * K) ∧
    ((T : Int) * K < 2147483648 → (runIncrements sched ⟨0⟩).Value = (T : Int) * K) := by
  have hv : (runIncrements sched ⟨0⟩).Value = wrap 32 ((T : Int) * K) := by
    unfold SafeCounter.Value LoadInt32
    rw [runIncrements_value sched ⟨0⟩ wrap32_zero, interleaving_length T K sched h]
    push_cast
    simp
  refine ⟨hv, fun hlt => ?_⟩
  rw [hv]
  apply wrap_of_range 32 (by decide)
  · have : (0 : Int) ≤ (T : Int) * K := Int.mul_nonneg (Int.ofNat_nonneg T) (Int.ofNat_nonneg K)
    norm_num
    linarith
  · norm_num
    exact hlt

/-- Witness of C3: two threads, two increments each, interleaved as 0,1,1,0. -/
theorem atomic_counter_convergence_witness :
    IsInterleaving 2 2 [0, 1, 1, 0] ∧
    (runIncrements [0, 1, 1, 0] ⟨0⟩).Value = wrap 32 (((2 : Nat) : Int) * (2 : Nat)) ∧
    ((((2 : Nat) : Int) * (2 : Nat) < 2147483648 →
      (runIncrements [0, 1, 1, 0] ⟨0⟩).Value = ((2 : Nat) : Int) * (2 : Nat))) :=
  ⟨by decide, atomic_counter_convergence 2 2 [0, 1, 1, 0] (by decide)⟩

/-- C3 as stated fails: two threads doing `2^30` increments each leave the
`int32` counter at `-2^31`, not at `T*K = 2^31`. -/
theorem atomic_counter_convergence_counterexample :
    IsInterleaving 2 1073741824 (List.replicate 1073741824 0 ++ List.replicate 1073741824 1) ∧
    (runIncrements (List.replicate 1073741824 0 ++ List.replicate 1073741824 1) ⟨0⟩).Value
      = -2147483648 ∧
    (runIncrements (List.replicate 1073741824 0 ++ List.replicate 1073741824 1) ⟨0⟩).Value
      ≠ ((2 : Nat) : Int) * (1073741824 : Nat) :=
  have hw : wrap 32 ((2 * 1073741824 : Nat) : Int) = -2147483648 := by norm_num [wrap]
  have hne : (-2147483648 : Int) ≠ ((2 : Nat) : Int) * (1073741824 : Nat) := by norm_num
  ⟨two_thread_interleaving 1073741824, (two_thread_value 1073741824).trans hw,
    fun e => hne (((two_thread_value 1073741824).trans hw).symm.trans e)⟩

/-- C4 (as amended): for every ordering of `T1` `Increment` calls and `T2`
`Decrement` calls on a `SafeCounter` that starts at 0, `Value()` afterwards
returns `T1 - T2` wrapped to `int32`; it is exactly `T1 - T2` whenever that
difference is an `int32`. -/
theorem mixed_counter_convergence (T1 T2 : Nat) (ops : List CounterOp)
    (h1 : ops.count CounterOp.increment = T1) (h2 : ops.count CounterOp.decrement = T2) :
    (runCounter ops ⟨0⟩).Value = wrap 32 ((T1 : Int) - T2) ∧
    (isInt32 ((T1 : Int) - T2) → (runCounter ops ⟨0⟩).Value = (T1 : Int) - T2) := by
  have hv : (runCounter ops ⟨0⟩).Value = wrap 32 ((T1 : Int) - T2) := by
    unfold SafeCounter.Value LoadInt32
    rw [runCounter_value ops ⟨0⟩ wrap32_zero, h1, h2]
    simp
  refine ⟨hv, fun hr => ?_⟩
  rw [hv]
  unfold isInt32 at hr
  apply wrap_of_range 32 (by decide)
  · norm_num
    linarith [hr.1]
  · norm_num
    linarith [hr.2]

/-- Witness of C4: the test's 100 increments and 50 decrements, here with the
decrements first. -/
theorem mixed_counter_convergence_witness :
    (runCounter (List.replicate 50 CounterOp.decrement ++ List.replicate 100 CounterOp.increment)
      ⟨0⟩).Value = 50 := by
  have h := mixed_counter_convergence 100 50
    (List.replicate 50 CounterOp.decrement ++ List.replicate 100 CounterOp.increment)
    (by rfl) (by rfl)
  have h2 := h.2 (by norm_num [isInt32])
  rw [h2]
  norm_num

/-- C4 as stated fails: `2^31` increments and no decrement leave `Value()` at
`-2^31`, not at `T1 - T2 = 2^31`. -/
theorem mixed_counter_convergence_counterexample :
    (List.replicate 2147483648 CounterOp.increment).count CounterOp.increment = 2147483648 ∧
    (List.replicate 2147483648 CounterOp.increment).count CounterOp.decrement = 0 ∧
    (runCounter (List.replicate 2147483648 CounterOp.increment) ⟨0⟩).Value = -2147483648 ∧
    (runCounter (List.replicate 2147483648 CounterOp.increment) ⟨0⟩).Value
      ≠ ((2147483648 : Nat) : Int) - ((0 : Nat) : Int) :=
  have hw : wrap 32 ((2147483648 : Nat) : Int) = -2147483648 := by norm_num [wrap]
  have hne : (-2147483648 : Int) ≠ ((2147483648 : Nat) : Int) - ((0 : Nat) : Int) := by norm_num
  ⟨(count_replicate_increment 2147483648).1, (count_replicate_increment 2147483648).2,
    (replicate_increment_value 2147483648).trans hw,
    fun e => hne (((replicate_increment_value 2147483648).trans hw).symm.trans e)⟩

/-! ### AtomicFlag -/

theorem runFlag_concat (pre : List FlagOp) (op : FlagOp) (f : AtomicFlag) :
    runFlag (pre ++ [op]) f = op.apply (runFlag pre f) := by
  induction pre generalizing f with
  | nil => rfl
  | cons x rest ih => simp [runFlag, ih]

theorem runFlag_isSet_of_getLast (ops : List FlagOp) (f : AtomicFlag) :
    (runFlag ops f).IsSet =
      match ops.getLast? with
      | none => f.IsSet
      | some FlagOp.set => true
      | some FlagOp.unset => false := by
  rcases List.eq_nil_or_concat ops with rfl | ⟨pre, op, rfl⟩
  · rfl
  · rw [List.concat_eq_append, runFlag_concat, List.getLast?_append]
    cases op <;> rfl

theorem getLast_set_of_ordered (ops : List FlagOp)
    (hord : ops.Pairwise (fun a b => ¬ (a = FlagOp.set ∧ b = FlagOp.unset)))
    (hset : FlagOp.set ∈ ops) : ops.getLast? = some FlagOp.set := by
  rcases List.eq_nil_or_concat ops with rfl | ⟨pre, op, rfl⟩
  · simp at hset
  · rw [List.concat_eq_append] at *
    rw [List.getLast?_append]
    cases op with
    | set => rfl
    | unset =>
      exfalso
      rw [List.pairwise_append] at hord
      have hmem : FlagOp.set ∈ pre := by
        rcases List.mem_append.mp hset with h | h
        · exact h
        · simp at h
      exact hord.2.2 FlagOp.set hmem FlagOp.unset (by simp) ⟨rfl, rfl⟩

/-- C6: `AtomicFlag` is last-writer-wins. After any sequence of `Set`/`Unset`
calls on a flag in any state, `IsSet()` is true if the last call was `Set`,
false if it was `Unset`, and the initial value if there was no call (false for
the zero value); a sequence with no `Unset` after a `Set` and at least one
`Set` ends with `IsSet() = true`. -/
theorem flag_last_writer_wins (ops : List FlagOp) (f : AtomicFlag) :
    ((runFlag ops f).IsSet =
      match ops.getLast? with
      | none => f.IsSet
      | some FlagOp.set => true
      | some FlagOp.unset => false) ∧
    AtomicFlag.zero.IsSet = false ∧
    (ops.Pairwise (fun a b => ¬ (a = FlagOp.set ∧ b = FlagOp.unset)) →
      FlagOp.set ∈ ops → (runFlag ops f).IsSet = true) := by
  refine ⟨runFlag_isSet_of_getLast ops f, rfl, fun hord hset => ?_⟩
  rw [runFlag_isSet_of_getLast, getLast_set_of_ordered ops hord hset]

/-- Witness of C6: two `Unset` calls followed by two `Set` calls on a flag
whose word is 1. -/
theorem flag_last_writer_wins_witness :
    [FlagOp.unset, FlagOp.unset, FlagOp.set, FlagOp.set].Pairwise
        (fun a b => ¬ (a = FlagOp.set ∧ b = FlagOp.unset)) ∧
      FlagOp.set ∈ [FlagOp.unset, FlagOp.unset, FlagOp.set, FlagOp.set] ∧
      (runFlag [FlagOp.unset, FlagOp.unset, FlagOp.set, FlagOp.set] ⟨1⟩).IsSet = true :=
  ⟨by decide, by decide,
    (flag_last_writer_wins [FlagOp.unset, FlagOp.unset, FlagOp.set, FlagOp.set] ⟨1⟩).2.2
      (by decide) (by decide)⟩

/-- For every order of `m ≥ 1` `Set` calls and `n` `Unset` calls on a flag that
starts unset, `IsSet()` afterwards is true exactly when the call that took
effect last is a `Set`; this is so in every order when `n = 0`. -/
theorem flag_set_iff_last_set (m n : Nat) (ops : List FlagOp)
    (hm : ops.count FlagOp.set = m) (hn : ops.count FlagOp.unset = n) (h1 : 1 ≤ m) :
    ((runFlag ops AtomicFlag.zero).IsSet = true ↔ ops.getLast? = some FlagOp.set) ∧
    (n = 0 → (runFlag ops AtomicFlag.zero).IsSet = true) := by
  have hne : ops ≠ [] := by
    rintro rfl
    simp at hm
    omega
  have hiff : (runFlag ops AtomicFlag.zero).IsSet = true ↔ ops.getLast? = some FlagOp.set := by
    rw [runFlag_isSet_of_getLast]
    rcases List.eq_nil_or_concat ops with rfl | ⟨pre, op, rfl⟩
    · exact absurd rfl hne
    · rw [List.concat_eq_append, List.getLast?_append]
      cases op <;> simp
  refine ⟨hiff, fun h0 => hiff.mpr ?_⟩
  rcases List.eq_nil_or_concat ops with rfl | ⟨pre, op, rfl⟩
  · exact absurd rfl hne
  · rw [List.concat_eq_append] at *
    rw [List.getLast?_append]
    cases op with
    | set => rfl
    | unset =>
      exfalso
      rw [h0] at hn
      have := List.count_eq_zero.mp hn
      exact this (by simp)

/-- C5: the property asserted by `TestAtomicFlag` (after 10 `Set` and 5 `Unset`
calls in any order on a flag that starts unset, `IsSet()` is true) fails on the
code: when the 10 `Set` calls take effect before the 5 `Unset` calls, which is
the order in which the test starts its goroutines, `IsSet()` returns false. -/
theorem flag_test_fails_when_unset_last :
    (List.replicate 10 FlagOp.set ++ List.replicate 5 FlagOp.unset).count FlagOp.set = 10 ∧
    (List.replicate 10 FlagOp.set ++ List.replicate 5 FlagOp.unset).count FlagOp.unset = 5 ∧
    (runFlag (List.replicate 10 FlagOp.set ++ List.replicate 5 FlagOp.unset)
      AtomicFlag.zero).IsSet = false := by
  decide

theorem runFlag_word (ops : List FlagOp) (f : AtomicFlag) (hf : f.flag = 0 ∨ f.flag = 1) :
    (runFlag ops f).flag = 0 ∨ (runFlag ops f).flag = 1 := by
  induction ops generalizing f with
  | nil => exact hf
  | cons op rest ih =>
    cases op with
    | set => exact ih f.Set (Or.inr rfl)
    | unset => exact ih f.Unset (Or.inl rfl)

/-- C10: the word of every flag reachable from the zero value by `Set`/`Unset`
calls is 0 or 1, and for every flag state `Set` twice is `Set` once and `Unset`
twice is `Unset` once. -/
theorem flag_word_binary_and_idempotent :
    (∀ ops : List FlagOp,
      (runFlag ops AtomicFlag.zero).flag = 0 ∨ (runFlag ops AtomicFlag.zero).flag = 1) ∧
    (∀ s : AtomicFlag, s.Set.Set = s.Set ∧ s.Unset.Unset = s.Unset) :=
  ⟨fun ops => runFlag_word ops AtomicFlag.zero (Or.inl rfl), fun _ => ⟨rfl, rfl⟩⟩

/-! ### SpinLock, one thread -/

theorem tryAcquire_free (s : SpinLock) (h : s.locked = 0) : s.tryAcquire = (⟨1⟩, true) := by
  simp [SpinLock.tryAcquire, CompareAndSwapInt32, h]

theorem tryAcquire_busy (s : SpinLock) (h : s.locked ≠ 0) : s.tryAcquire = (s, false) := by
  simp [SpinLock.tryAcquire, CompareAndSwapInt32, h]

theorem lock_spins (n : Nat) (s : SpinLock) (h : s.locked ≠ 0) : SpinLock.Lock n s = none := by
  induction n with
  | zero => rfl
  | succ k ih => simp [SpinLock.Lock, tryAcquire_busy s h, ih]

theorem attempts_spin (n : Nat) (s : SpinLock) (h : s.locked ≠ 0) :
    SpinLock.attempts n s = (List.replicate n false, s) := by
  induction n with
  | zero => rfl
  | succ k ih => simp [SpinLock.attempts, tryAcquire_busy s h, ih, List.replicate_succ]

theorem lock_free (n : Nat) (s : SpinLock) (h : s.locked = 0) :
    SpinLock.Lock (n + 1) s = some ⟨1⟩ := by
  simp [SpinLock.Lock, tryAcquire_free s h]

theorem lock_result (n : Nat) (s s' : SpinLock) (h : SpinLock.Lock n s = some s') :
    s.locked = 0 ∧ s'.locked = 1 := by
  by_cases h0 : s.locked = 0
  · cases n with
    | zero => simp [SpinLock.Lock] at h
    | succ k =>
      rw [lock_free k s h0] at h
      cases h
      exact ⟨h0, rfl⟩
  · rw [lock_spins n s h0] at h
    cases h

/-- C8: no reentrancy. `Lock` called while the state word is 1, with no other
thread storing 0, never returns: for every `n` the first `n` `CompareAndSwap`
attempts all fail and leave the word at 1. `Lock` called with the word 0
returns after its first attempt with the word 1. -/
theorem lock_no_reentrancy :
    (∀ n, SpinLock.attempts n ⟨1⟩ = (List.replicate n false, ⟨1⟩)) ∧
    (∀ n, SpinLock.Lock n ⟨1⟩ = none) ∧
    SpinLock.attempts 1 ⟨0⟩ = ([true], ⟨1⟩) ∧
    (∀ n, SpinLock.Lock (n + 1) ⟨0⟩ = some ⟨1⟩) :=
  ⟨fun n => attempts_spin n ⟨1⟩ (by decide), fun n => lock_spins n ⟨1⟩ (by decide),
    by decide, fun n => lock_free n ⟨0⟩ rfl⟩

theorem attempts_word (n : Nat) (s : SpinLock) :
    (SpinLock.attempts n s).2.locked = s.locked ∨ (SpinLock.attempts n s).2.locked = 1 := by
  by_cases h0 : s.locked = 0
  · cases n with
    | zero => exact Or.inl rfl
    | succ k => simp [SpinLock.attempts, tryAcquire_free s h0]
  · rw [attempts_spin n s h0]; exact Or.inl rfl

/-- C7 (as amended): every operation of `SafeCounter` and `AtomicFlag`, and
`SpinLock.Unlock`, is total on every state of its cell and leaves a valid cell:
the counter an `int32`, the flag word and the lock word written 0 or 1 (the
readers `Value` and `IsSet` only report the cell). The attempts of
`SpinLock.Lock` leave the word as it was or set it to 1; `Lock` returns, with
the word 1, exactly when it finds the word 0; with the word non-zero and no
other thread storing 0 it never returns. -/
theorem primitives_total_and_valid (c : SafeCounter) (f : AtomicFlag) (s : SpinLock) :
    (isInt32 c.Increment.value ∧ isInt32 c.Decrement.value ∧ c.Value = c.value) ∧
    (f.Set.flag = 1 ∧ f.Unset.flag = 0 ∧ (f.IsSet = true ↔ f.flag = 1)) ∧
    s.Unlock.locked = 0 ∧
    (s.locked = 0 → ∀ n, SpinLock.Lock (n + 1) s = some ⟨1⟩) ∧
    (s.locked ≠ 0 → ∀ n, SpinLock.Lock n s = none) ∧
    (∀ n s', SpinLock.Lock n s = some s' → s'.locked = 1) ∧
    (∀ n, (SpinLock.attempts n s).2.locked = s.locked ∨
      (SpinLock.attempts n s).2.locked = 1) := by
  refine ⟨⟨wrap32_isInt32 _, wrap32_isInt32 _, rfl⟩, ⟨rfl, rfl, ?_⟩, rfl,
    fun h n => lock_free n s h, fun h n => lock_spins n s h,
    fun n s' h => (lock_result n s s' h).2, fun n => attempts_word n s⟩
  simp [AtomicFlag.IsSet, LoadInt32]

/-- Witness of C7: the counter at the largest `int32`, a set flag, a free lock. -/
theorem primitives_total_and_valid_witness :
    isInt32 (SafeCounter.Increment ⟨2147483647⟩).value ∧
    (∀ n, SpinLock.Lock (n + 1) ⟨0⟩ = some ⟨1⟩) ∧
    (⟨1⟩ : SpinLock).locked = 1 :=
  ⟨(primitives_total_and_valid ⟨2147483647⟩ ⟨1⟩ ⟨0⟩).1.1,
    (primitives_total_and_valid ⟨2147483647⟩ ⟨1⟩ ⟨0⟩).2.2.2.1 rfl,
    (primitives_total_and_valid ⟨2147483647⟩ ⟨1⟩ ⟨0⟩).2.2.2.2.2.1 3 ⟨1⟩ rfl⟩

/-- C7 as stated fails: `Lock` called on a lock whose word is 1 does not
complete, however many attempts it is given. -/
theorem primitives_total_and_valid_counterexample :
    ¬ ∃ n, (SpinLock.Lock n ⟨1⟩).isSome = true := by
  rintro ⟨n, hn⟩
  rw [lock_spins n ⟨1⟩ (by decide)] at hn
  cases hn

/-! ### SpinLock, clients without discipline -/

theorem clients_run_append (xs ys : List Call) (s : Clients) :
    Clients.run (xs ++ ys) s = Clients.run ys (Clients.run xs s) := by
  induction xs generalizing s with
  | nil => rfl
  | cons c rest ih => simp [Clients.run, ih]

theorem clients_attempt_busy (s : Clients) (t : Nat) (h : s.spin.locked ≠ 0) :
    Clients.step (Call.lockAttempt t) s = s := by
  simp [Clients.step, tryAcquire_busy s.spin h]

theorem clients_attempt_free (s : Clients) (t : Nat) (h : s.spin.locked = 0) :
    Clients.step (Call.lockAttempt t) s = ⟨⟨1⟩, Function.update s.holds t true⟩ := by
  simp [Clients.step, tryAcquire_free s.spin h]

theorem clients_attempts_busy (n t : Nat) (s : Clients) (h : s.spin.locked ≠ 0) :
    Clients.run (List.replicate n (Call.lockAttempt t)) s = s := by
  induction n with
  | zero => rfl
  | succ k ih => simp [List.replicate_succ, Clients.run, clients_attempt_busy s t h, ih]

/-- C9: `Unlock` stores 0 whatever the word holds and whoever calls it, a
`Lock` attempt on a word that is not 0 lets nobody in, and misuse breaks mutual
exclusion silently. In the execution below thread 0 acquires the lock (word 1,
threads 1 and 2 are not holders); as long as nobody calls `Unlock`, no number
of attempts lets thread 1 in; thread 2, which does not hold the lock, calls
`Unlock()` while thread 0 is inside, which puts the word at 0 with thread 0
still a holder; the next attempt of thread 1 then succeeds, and threads 0 and 1
have both returned from `Lock()` without calling `Unlock()`. The steps have no
error outcome. -/
theorem unlock_misuse_two_holders :
    (∀ s : SpinLock, s.Unlock = ⟨0⟩) ∧
    (∀ (s : Clients) (t : Nat),
      (Clients.step (Call.unlock t) s).spin.locked = 0 ∧
      (Clients.step (Call.unlock t) s).holds t = false ∧
      ∀ u, u ≠ t → (Clients.step (Call.unlock t) s).holds u = s.holds u) ∧
    (∀ (s : Clients) (t : Nat), s.spin.locked ≠ 0 →
      (Clients.step (Call.lockAttempt t) s).spin = s.spin ∧
      (Clients.step (Call.lockAttempt t) s).holds = s.holds) ∧
    (∀ (s : Clients) (t : Nat), s.spin.locked = 0 →
      (Clients.step (Call.lockAttempt t) s).spin.locked = 1 ∧
      (Clients.step (Call.lockAttempt t) s).holds t = true ∧
      ∀ u, u ≠ t → (Clients.step (Call.lockAttempt t) s).holds u = s.holds u) ∧
    ((Clients.run [Call.lockAttempt 0] Clients.init).spin.locked = 1 ∧
      (Clients.run [Call.lockAttempt 0] Clients.init).holds 0 = true ∧
      (Clients.run [Call.lockAttempt 0] Clients.init).holds 1 = false ∧
      (Clients.run [Call.lockAttempt 0] Clients.init).holds 2 = false) ∧
    (∀ n, (Clients.run ([Call.lockAttempt 0] ++ List.replicate n (Call.lockAttempt 1))
        Clients.init).spin.locked = 1 ∧
      (Clients.run ([Call.lockAttempt 0] ++ List.replicate n (Call.lockAttempt 1))
        Clients.init).holds 1 = false) ∧
    ((Clients.run [Call.lockAttempt 0, Call.unlock 2] Clients.init).spin.locked = 0 ∧
      (Clients.run [Call.lockAttempt 0, Call.unlock 2] Clients.init).holds 0 = true ∧
      (Clients.run [Call.lockAttempt 0, Call.unlock 2] Clients.init).holds 1 = false) ∧
    ((Clients.run [Call.lockAttempt 0, Call.unlock 2, Call.lockAttempt 1]
        Clients.init).spin.locked = 1 ∧
      (Clients.run [Call.lockAttempt 0, Call.unlock 2, Call.lockAttempt 1]
        Clients.init).holds 0 = true ∧
      (Clients.run [Call.lockAttempt 0, Call.unlock 2, Call.lockAttempt 1]
        Clients.init).holds 1 = true) := by
  refine ⟨fun _ => rfl, fun s t => ⟨rfl, ?_, fun u hu => ?_⟩, fun s t h => ?_, fun s t h => ?_,
    by decide, fun n => ?_, by decide, by decide⟩
  · simp [Clients.step]
  · simp [Clients.step, Function.update_noteq hu]
  · rw [clients_attempt_busy s t h]
    exact ⟨rfl, rfl⟩
  · rw [clients_attempt_free s t h]
    exact ⟨rfl, by simp, fun u hu => by simp [Function.update_noteq hu]⟩
  · rw [clients_run_append,
      clients_attempts_busy n 1 (Clients.run [Call.lockAttempt 0] Clients.init) (by decide)]
    decide

/-- Witness of C9: with thread 0 inside, an attempt of thread 1 changes neither
the word nor the holders, and an attempt on the free lock lets thread 1 in. -/
theorem unlock_misuse_two_holders_witness :
    ((Clients.step (Call.lockAttempt 1) (Clients.run [Call.lockAttempt 0] Clients.init)).spin
        = (Clients.run [Call.lockAttempt 0] Clients.init).spin ∧
      (Clients.step (Call.lockAttempt 1) (Clients.run [Call.lockAttempt 0] Clients.init)).holds
        = (Clients.run [Call.lockAttempt 0] Clients.init).holds) ∧
    ((Clients.step (Call.lockAttempt 1) Clients.init).spin.locked = 1 ∧
      (Clients.step (Call.lockAttempt 1) Clients.init).holds 1 = true) :=
  ⟨unlock_misuse_two_holders.2.2.1 (Clients.run [Call.lockAttempt 0] Clients.init) 1
      (by decide),
    (unlock_misuse_two_holders.2.2.2.1 Clients.init 1 rfl).1,
    (unlock_misuse_two_holders.2.2.2.1 Clients.init 1 rfl).2.1⟩

/-! ### SpinLock, the guarded counter workload -/

theorem step_acquire_free (bits K t : Nat) (s : World)
    (hpc : (s.workers t).pc = PC.acquire) (h0 : s.spin.locked = 0) :
    World.step bits K t s =
      { s with spin := ⟨1⟩,
               workers := Function.update s.workers t { s.workers t with pc := PC.load } } := by
  simp [World.step, hpc, tryAcquire_free s.spin h0]

theorem step_acquire_busy (bits K t : Nat) (s : World)
    (hpc : (s.workers t).pc = PC.acquire) (h0 : s.spin.locked ≠ 0) :
    World.step bits K t s = s := by
  simp [World.step, hpc, tryAcquire_busy s.spin h0]

theorem step_load (bits K t : Nat) (s : World) (hpc : (s.workers t).pc = PC.load) :
    World.step bits K t s =
      { s with workers :=
          Function.update s.workers t { s.workers t with pc := PC.store, tmp := s.count } } := by
  simp [World.step, hpc]

theorem step_store (bits K t : Nat) (s : World) (hpc : (s.workers t).pc = PC.store) :
    World.step bits K t s =
      { s with count := wrap bits ((s.workers t).tmp + 1),
               workers := Function.update s.workers t { s.workers t with pc := PC.release } } := by
  simp [World.step, hpc]

theorem step_release (bits K t : Nat) (s : World) (hpc : (s.workers t).pc = PC.release) :
    World.step bits K t s =
      { s with spin := ⟨0⟩,
               workers := Function.update s.workers t
                 { s.workers t with
                   i := (s.workers t).i + 1,
                   pc := if (s.workers t).i + 1 < K then PC.acquire else PC.finished } } := by
  simp [World.step, hpc, SpinLock.Unlock, StoreInt32]

theorem step_finished (bits K t : Nat) (s : World) (hpc : (s.workers t).pc = PC.finished) :
    World.step bits K t s = s := by
  simp [World.step, hpc]

theorem lockInv_update_same (s : World) (t : Nat) (w : Worker) (l : SpinLock) (c : Int)
    (hl : l.locked = s.spin.locked) (hw : w.inCS = (s.workers t).inCS) (h : s.LockInv) :
    World.LockInv ⟨l, c, Function.update s.workers t w⟩ := by
  have key : ∀ u, (Function.update s.workers t w u).inCS = (s.workers u).inCS := by
    intro u
    by_cases hu : u = t
    · subst hu; simp [hw]
    · simp [Function.update_noteq hu]
  unfold World.LockInv at *
  simp only [key, hl]
  exact h

theorem lockInv_init (T K : Nat) : (World.init T K).LockInv := by
  left
  refine ⟨rfl, fun t => ?_⟩
  simp only [World.init]
  split <;> rfl

theorem lockInv_step (bits K t : Nat) (s : World) (h : s.LockInv) :
    (World.step bits K t s).LockInv := by
  cases hpc : (s.workers t).pc with
  | acquire =>
    by_cases h0 : s.spin.locked = 0
    · rw [step_acquire_free bits K t s hpc h0]
      right
      refine ⟨rfl, t, by simp [Worker.inCS], fun u hu => ?_⟩
      by_contra hne
      simp only [Function.update_noteq hne] at hu
      rcases h with ⟨_, hall⟩ | ⟨h1, _⟩
      · rw [hall u] at hu; cases hu
      · rw [h0] at h1; cases h1
    · rw [step_acquire_busy bits K t s hpc h0]; exact h
  | load =>
    rw [step_load bits K t s hpc]
    exact lockInv_update_same s t _ _ _ rfl (by simp [Worker.inCS, hpc]) h
  | store =>
    rw [step_store bits K t s hpc]
    exact lockInv_update_same s t _ _ _ rfl (by simp [Worker.inCS, hpc]) h
  | release =>
    rw [step_release bits K t s hpc]
    left
    refine ⟨rfl, fun u => ?_⟩
    by_cases hu : u = t
    · subst hu
      simp only [Function.update_same, Worker.inCS]
      split <;> rfl
    · simp only [Function.update_noteq hu]
      rcases h with ⟨_, hall⟩ | ⟨_, holder, _, huniq⟩
      · exact hall u
      · cases hin : (s.workers u).inCS with
        | false => rfl
        | true =>
          exfalso
          have h1 := huniq u hin
          have h2 := huniq t (by simp [Worker.inCS, hpc])
          exact hu (h1.trans h2.symm)
  | finished =>
    rw [step_finished bits K t s hpc]; exact h

theorem lockInv_run (bits K : Nat) (sched : List Nat) (s : World) (h : s.LockInv) :
    (World.run bits K sched s).LockInv := by
  induction sched generalizing s with
  | nil => exact h
  | cons t rest ih => exact ih _ (lockInv_step bits K t s h)

/-- C1: mutual exclusion of `SpinLock`. In every state reachable by an
interleaving of the steps of `T` threads that each loop `K` times over
`Lock(); critical section; Unlock()`, starting from an unlocked lock, at most
one thread is inside the critical section, and the state word is 1 whenever
some thread is inside (it is 0 or 1 in every reachable state). -/
theorem spinlock_mutual_exclusion (bits T K : Nat) (sched : List Nat) :
    (∀ a b, ((World.run bits K sched (World.init T K)).workers a).inCS = true →
      ((World.run bits K sched (World.init T K)).workers b).inCS = true → a = b) ∧
    (∀ a, ((World.run bits K sched (World.init T K)).workers a).inCS = true →
      (World.run bits K sched (World.init T K)).spin.locked = 1) ∧
    ((World.run bits K sched (World.init T K)).spin.locked = 0 ∨
      (World.run bits K sched (World.init T K)).spin.locked = 1) := by
  have h := lockInv_run bits K sched (World.init T K) (lockInv_init T K)
  rcases h with ⟨h0, hall⟩ | ⟨h1, holder, _, huniq⟩
  · refine ⟨fun a b ha _ => ?_, fun a ha => ?_, Or.inl h0⟩
    · rw [hall a] at ha; cases ha
    · rw [hall a] at ha; cases ha
  · exact ⟨fun a b ha hb => (huniq a ha).trans (huniq b hb).symm, fun _ _ => h1, Or.inr h1⟩

/-- Witness of C1: two threads, thread 0 has acquired the lock and thread 1 has
failed a `CompareAndSwap`; thread 0 is inside, thread 1 is not, the word is 1. -/
theorem spinlock_mutual_exclusion_witness :
    ((World.run 64 3 [0, 1, 0] (World.init 2 3)).workers 0).inCS = true ∧
    ((World.run 64 3 [0, 1, 0] (World.init 2 3)).workers 1).inCS = false ∧
    (World.run 64 3 [0, 1, 0] (World.init 2 3)).spin.locked = 1 :=
  ⟨by decide, by decide,
    (spinlock_mutual_exclusion 64 2 3 [0, 1, 0]).2.1 0 (by decide)⟩

theorem wrap_zero (bits : Nat) (hb : 0 < bits) : wrap bits 0 = 0 :=
  wrap_of_range bits hb 0 (by simp) (by positivity)

theorem sum_credit_update_same (T t : Nat) (f : Nat → Worker) (w : Worker)
    (hw : w.credit = (f t).credit) :
    (Finset.range T).sum (fun j => (Function.update f t w j).credit)
      = (Finset.range T).sum (fun j => (f j).credit) := by
  apply Finset.sum_congr rfl
  intro j _
  by_cases hj : j = t
  · subst hj; simp [hw]
  · simp [Function.update_noteq hj]

theorem sum_credit_update_succ (T t : Nat) (f : Nat → Worker) (w : Worker) (ht : t < T)
    (hw : w.credit = (f t).credit + 1) :
    (Finset.range T).sum (fun j => (Function.update f t w j).credit)
      = (Finset.range T).sum (fun j => (f j).credit) + 1 := by
  have hfun : (fun j => (Function.update f t w j).credit)
      = Function.update (fun j => (f j).credit) t w.credit := by
    funext j
    by_cases hj : j = t
    · subst hj; simp
    · simp [Function.update_noteq hj]
  have hmem : t ∈ Finset.range T := Finset.mem_range.mpr ht
  rw [hfun, Finset.sum_update_of_mem hmem, Finset.sdiff_singleton_eq_erase, hw]
  have h := Finset.add_sum_erase (Finset.range T) (fun j => (f j).credit) hmem
  simp only at h
  omega

theorem countInv_init (bits T K : Nat) (hb : 0 < bits) : (World.init T K).CountInv bits T K := by
  refine ⟨fun t ht => ?_, ?_, fun t ht => ?_, fun t ht => ?_⟩
  · exfalso
    simp only [World.init] at ht
    split at ht <;> cases ht
  · have hs : (Finset.range T).sum (fun t => ((World.init T K).workers t).credit) = 0 := by
      apply Finset.sum_eq_zero
      intro t _
      simp only [World.init, Worker.credit]
      split <;> simp
    rw [hs]
    simp [World.init, wrap_zero bits hb]
  · simp only [World.init]
    by_cases hK : 0 < K
    · simp [ht, hK]
    · simp [hK]; omega
  · simp only [World.init]
    have : ¬ (t < T ∧ 0 < K) := by omega
    simp [this]

theorem not_idle_lt (bits T K t : Nat) (s : World) (h : s.CountInv bits T K)
    (hpc : (s.workers t).pc ≠ PC.finished) : t < T := by
  by_contra hlt
  exact hpc (h.idle t (by omega))

theorem countInv_step (bits T K t : Nat) (s : World) (hl : s.LockInv)
    (h : s.CountInv bits T K) : (World.step bits K t s).CountInv bits T K := by
  cases hpc : (s.workers t).pc with
  | acquire =>
    by_cases h0 : s.spin.locked = 0
    · rw [step_acquire_free bits K t s hpc h0]
      have ht : t < T := not_idle_lt bits T K t s h (by simp [hpc])
      refine ⟨fun u hu => ?_, ?_, fun u hu => ?_, fun u hu => ?_⟩
      · by_cases hut : u = t
        · subst hut; simp at hu
        · simp only [Function.update_noteq hut] at hu ⊢
          exact h.tmp u hu
      · simp only
        rw [sum_credit_update_same T t s.workers _ (by simp [Worker.credit, hpc])]
        exact h.count
      · by_cases hut : u = t
        · subst hut
          simp only [Function.update_same]
          exact ⟨fun hf => (by cases hf), fun _ => (h.loop u hu).2 (by simp [hpc])⟩
        · simp only [Function.update_noteq hut]
          exact h.loop u hu
      · have hut : u ≠ t := by omega
        simp only [Function.update_noteq hut]
        exact h.idle u hu
    · rw [step_acquire_busy bits K t s hpc h0]; exact h
  | load =>
    rw [step_load bits K t s hpc]
    have ht : t < T := not_idle_lt bits T K t s h (by simp [hpc])
    refine ⟨fun u hu => ?_, ?_, fun u hu => ?_, fun u hu => ?_⟩
    · by_cases hut : u = t
      · subst hut; simp
      · simp only [Function.update_noteq hut] at hu ⊢
        exact h.tmp u hu
    · simp only
      rw [sum_credit_update_same T t s.workers _ (by simp [Worker.credit, hpc])]
      exact h.count
    · by_cases hut : u = t
      · subst hut
        simp only [Function.update_same]
        exact ⟨fun hf => (by cases hf), fun _ => (h.loop u hu).2 (by simp [hpc])⟩
      · simp only [Function.update_noteq hut]
        exact h.loop u hu
    · have hut : u ≠ t := by omega
      simp only [Function.update_noteq hut]
      exact h.idle u hu
  | store =>
    rw [step_store bits K t s hpc]
    have ht : t < T := not_idle_lt bits T K t s h (by simp [hpc])
    refine ⟨fun u hu => ?_, ?_, fun u hu => ?_, fun u hu => ?_⟩
    · exfalso
      by_cases hut : u = t
      · subst hut; simp at hu
      · simp only [Function.update_noteq hut] at hu
        rcases hl with ⟨_, hall⟩ | ⟨_, holder, _, huniq⟩
        · have := hall t
          simp [Worker.inCS, hpc] at this
        · have h1 := huniq u (by simp [Worker.inCS, hu])
          have h2 := huniq t (by simp [Worker.inCS, hpc])
          exact hut (h1.trans h2.symm)
    · simp only
      rw [sum_credit_update_succ T t s.workers _ ht (by simp [Worker.credit, hpc]),
        h.tmp t hpc, h.count, wrap_wrap_add]
      push_cast
      rfl
    · by_cases hut : u = t
      · subst hut
        simp only [Function.update_same]
        exact ⟨fun hf => (by cases hf), fun _ => (h.loop u hu).2 (by simp [hpc])⟩
      · simp only [Function.update_noteq hut]
        exact h.loop u hu
    · have hut : u ≠ t := by omega
      simp only [Function.update_noteq hut]
      exact h.idle u hu
  | release =>
    rw [step_release bits K t s hpc]
    have ht : t < T := not_idle_lt bits T K t s h (by simp [hpc])
    have hi : (s.workers t).i < K := (h.loop t ht).2 (by simp [hpc])
    refine ⟨fun u hu => ?_, ?_, fun u hu => ?_, fun u hu => ?_⟩
    · by_cases hut : u = t
      · subst hut
        exfalso
        simp only [Function.update_same] at hu
        split at hu <;> cases hu
      · simp only [Function.update_noteq hut] at hu ⊢
        exact h.tmp u hu
    · simp only
      rw [sum_credit_update_same T t s.workers _ (by
        simp only [Worker.credit, hpc]
        split <;> simp)]
      exact h.count
    · by_cases hut : u = t
      · subst hut
        simp only [Function.update_same]
        by_cases hlt : (s.workers u).i + 1 < K
        · simp [hlt]
        · simp [hlt]; omega
      · simp only [Function.update_noteq hut]
        exact h.loop u hu
    · have hut : u ≠ t := by omega
      simp only [Function.update_noteq hut]
      exact h.idle u hu
  | finished =>
    rw [step_finished bits K t s hpc]; exact h

theorem countInv_run (bits T K : Nat) (sched : List Nat) (s : World) (hl : s.LockInv)
    (h : s.CountInv bits T K) :
    (World.run bits K sched s).LockInv ∧ (World.run bits K sched s).CountInv bits T K := by
  induction sched generalizing s with
  | nil => exact ⟨hl, h⟩
  | cons t rest ih =>
    exact ih _ (lockInv_step bits K t s hl) (countInv_step bits T K t s hl h)

theorem count_of_allDone (bits T K : Nat) (s : World) (h : s.CountInv bits T K)
    (hd : s.allDone T) : s.count = wrap bits ((T : Int) * K) := by
  have hs : (Finset.range T).sum (fun t => (s.workers t).credit) = T * K := by
    rw [Finset.sum_congr rfl (fun t ht => ?_), Finset.sum_const, Finset.card_range, smul_eq_mul]
    have htT := Finset.mem_range.mp ht
    simp only [Worker.credit, hd t htT]
    simp [(h.loop t htT).1 (hd t htT)]
  rw [h.count, hs]
  push_cast
  rfl

theorem remaining_update_lt (T K t : Nat) (s : World) (l : SpinLock) (c : Int) (w : Worker)
    (ht : t < T) (hw : w.remaining K < (s.workers t).remaining K) :
    World.remaining T K ⟨l, c, Function.update s.workers t w⟩ < World.remaining T K s := by
  unfold World.remaining
  apply Finset.sum_lt_sum
  · intro j _
    by_cases hj : j = t
    · subst hj; simp only [Function.update_same]; omega
    · simp only [Function.update_noteq hj]; exact le_refl _
  · exact ⟨t, Finset.mem_range.mpr ht, by simpa using hw⟩

theorem progress (bits T K : Nat) (s : World) (hl : s.LockInv) (h : s.CountInv bits T K)
    (hnd : ¬ s.allDone T) :
    ∃ t, World.remaining T K (World.step bits K t s) < World.remaining T K s := by
  rcases hl with ⟨h0, hall⟩ | ⟨_, holder, hin, _⟩
  · unfold World.allDone at hnd
    push_neg at hnd
    obtain ⟨t, ht, hpc⟩ := hnd
    have hi : (s.workers t).i < K := (h.loop t ht).2 hpc
    have hacq : (s.workers t).pc = PC.acquire := by
      have hn := hall t
      cases hp : (s.workers t).pc with
      | acquire => rfl
      | load => simp [Worker.inCS, hp] at hn
      | store => simp [Worker.inCS, hp] at hn
      | release => simp [Worker.inCS, hp] at hn
      | finished => exact absurd hp hpc
    refine ⟨t, ?_⟩
    rw [step_acquire_free bits K t s hacq h0]
    apply remaining_update_lt T K t s _ _ _ ht
    simp only [Worker.remaining, hacq]
    omega
  · refine ⟨holder, ?_⟩
    cases hp : (s.workers holder).pc with
    | acquire => simp [Worker.inCS, hp] at hin
    | finished => simp [Worker.inCS, hp] at hin
    | load =>
      have ht : holder < T := not_idle_lt bits T K holder s h (by simp [hp])
      have hi : (s.workers holder).i < K := (h.loop holder ht).2 (by simp [hp])
      rw [step_load bits K holder s hp]
      apply remaining_update_lt T K holder s _ _ _ ht
      simp only [Worker.remaining, hp]
      omega
    | store =>
      have ht : holder < T := not_idle_lt bits T K holder s h (by simp [hp])
      have hi : (s.workers holder).i < K := (h.loop holder ht).2 (by simp [hp])
      rw [step_store bits K holder s hp]
      apply remaining_update_lt T K holder s _ _ _ ht
      simp only [Worker.remaining, hp]
      omega
    | release =>
      have ht : holder < T := not_idle_lt bits T K holder s h (by simp [hp])
      have hi : (s.workers holder).i < K := (h.loop holder ht).2 (by simp [hp])
      rw [step_release bits K holder s hp]
      apply remaining_update_lt T K holder s _ _ _ ht
      simp only [Worker.remaining, hp]
      split <;> rename_i hq <;> split at hq <;> simp at hq <;> omega

theorem exists_finishing_from (bits T K n : Nat) :
    ∀ s : World, s.LockInv → s.CountInv bits T K → World.remaining T K s ≤ n →
      ∃ sched, (World.run bits K sched s).allDone T := by
  induction n with
  | zero =>
    intro s hl h hn
    by_cases hd : s.allDone T
    · exact ⟨[], hd⟩
    · obtain ⟨t, ht⟩ := progress bits T K s hl h hd
      omega
  | succ k ih =>
    intro s hl h hn
    by_cases hd : s.allDone T
    · exact ⟨[], hd⟩
    · obtain ⟨t, ht⟩ := progress bits T K s hl h hd
      obtain ⟨sched, hs⟩ := ih (World.step bits K t s) (lockInv_step bits K t s hl)
        (countInv_step bits T K t s hl h) (by omega)
      exact ⟨t :: sched, hs⟩

theorem exists_finishing (bits T K : Nat) (hb : 0 < bits) :
    ∃ sched, (World.run bits K sched (World.init T K)).allDone T :=
  exists_finishing_from bits T K _ (World.init T K) (lockInv_init T K)
    (countInv_init bits T K hb) (le_refl _)

theorem count_after_run (bits T K : Nat) (hb : 0 < bits) (sched : List Nat)
    (hd : (World.run bits K sched (World.init T K)).allDone T) :
    (World.run bits K sched (World.init T K)).count = wrap bits ((T : Int) * K) :=
  count_of_allDone bits T K _
    (countInv_run bits T K sched _ (lockInv_init T K) (countInv_init bits T K hb)).2 hd

/-- C2 (as amended): spinlock serialization. Let `bits` be the width of Go's
`int`. The workload of `T` threads doing `K` times `Lock(); count++; Unlock()`
can run to completion, and for every interleaving, once all threads have
finished `count` is `T*K` wrapped to `bits` bits; it is exactly `T*K` whenever
`T*K ≤ 2^(bits-1) - 1` (with `T = 2`, `K = 100000`: 200000). -/
theorem spinlock_serialization (bits T K : Nat) (hb : 0 < bits) :
    (∃ sched, (World.run bits K sched (World.init T K)).allDone T) ∧
    ∀ sched, (World.run bits K sched (World.init T K)).allDone T →
      (World.run bits K sched (World.init T K)).count = wrap bits ((T : Int) * K) ∧
      ((T : Int) * K < 2 ^ (bits - 1) →
        (World.run bits K sched (World.init T K)).count = (T : Int) * K) := by
  refine ⟨exists_finishing bits T K hb, fun sched hd => ?_⟩
  have hv := count_after_run bits T K hb sched hd
  refine ⟨hv, fun hlt => ?_⟩
  rw [hv]
  apply wrap_of_range bits hb _ _ hlt
  have h1 : (0 : Int) ≤ (T : Int) * K := Int.mul_nonneg (Int.ofNat_nonneg T) (Int.ofNat_nonneg K)
  have h2 : (0 : Int) < 2 ^ (bits - 1) := by positivity
  linarith

/-- Witness of C2: two threads, one iteration each, on a 64-bit `int`; thread 1
fails two `CompareAndSwap` attempts while thread 0 is inside. -/
theorem spinlock_serialization_witness :
    (World.run 64 1 [0, 1, 0, 0, 1, 0, 1, 1, 1, 1] (World.init 2 1)).allDone 2 ∧
    (World.run 64 1 [0, 1, 0, 0, 1, 0, 1, 1, 1, 1] (World.init 2 1)).count
      = ((2 : Nat) : Int) * ((1 : Nat) : Int) :=
  ⟨by decide,
    ((spinlock_serialization 64 2 1 (by decide)).2 [0, 1, 0, 0, 1, 0, 1, 1, 1, 1]
      (by decide)).2 (by norm_num)⟩

/-- C2 as stated fails on a 64-bit `int`: with two threads doing `2^62`
iterations each, every finished run (there is one) leaves `count` at `-2^63`,
not at `T*K = 2^63`. -/
theorem spinlock_serialization_counterexample :
    ∃ sched,
      (World.run 64 4611686018427387904 sched (World.init 2 4611686018427387904)).allDone 2 ∧
      (World.run 64 4611686018427387904 sched (World.init 2 4611686018427387904)).count
        = -9223372036854775808 ∧
      (World.run 64 4611686018427387904 sched (World.init 2 4611686018427387904)).count
        ≠ ((2 : Nat) : Int) * ((4611686018427387904 : Nat) : Int) :=
  have hw : wrap 64 (((2 : Nat) : Int) * ((4611686018427387904 : Nat) : Int))
      = -9223372036854775808 := by norm_num [wrap]
  have hne : (-9223372036854775808 : Int)
      ≠ ((2 : Nat) : Int) * ((4611686018427387904 : Nat) : Int) := by norm_num
  (exists_finishing 64 2 4611686018427387904 (by decide)).elim fun sched hd =>
    ⟨sched, hd,
      (count_after_run 64 2 4611686018427387904 (by decide) sched hd).trans hw,
      fun e => hne (((count_after_run 64 2 4611686018427387904 (by decide) sched hd).trans
        hw).symm.trans e)⟩

end Mylab
